import Mathlib

/-!
Shallow embedding of the interp-acf repository (interpacf/interpacf.py) over
rational arithmetic, together with proofs of the specified properties.

The four repository functions are `interpolate_missing_data`, `autocorrelation`,
`interpolated_acf` and `dominant_period`.  NumPy and SciPy primitives that the
source calls (`median`, `diff`, `rint`, `arange`, `interp`, `correlate`,
`argsort`, `sort`, `argmax`, `argrelmax`, boolean indexing) are modelled from
their exact documented semantics.  `scipy.ndimage.gaussian_filter` is external
floating-point library code and is modelled as an explicit function parameter
applied to the sigma and truncate arguments computed by the source.
-/

set_option maxHeartbeats 1600000

attribute [local semireducible] Rat.mul Rat.add Rat.sub Rat.inv

namespace InterpACF

/-- Round to the nearest integer, ties to even; models numpy.rint restricted to
rational inputs. -/
def rint (q : ℚ) : ℤ :=
  let f := ⌊q⌋
  let r := q - (f : ℚ)
  if r < 1/2 then f
  else if 1/2 < r then f + 1
  else if f % 2 = 0 then f else f + 1

/-- Differences of consecutive elements; models numpy.diff on 1-D input. -/
def diffList (xs : List ℚ) : List ℚ :=
  (xs.zip xs.tail).map (fun p => p.2 - p.1)

/-- Ascending sort of rationals; models numpy.sort on 1-D input. -/
def npSort (xs : List ℚ) : List ℚ :=
  List.insertionSort (· ≤ ·) xs

/-- Median of a 1-D array; models numpy.median (middle element of the sorted
array when the length is odd, mean of the two middle elements when even). -/
def median (xs : List ℚ) : ℚ :=
  let s := npSort xs
  let n := s.length
  if n % 2 = 1 then s.getD (n / 2) 0
  else (s.getD (n / 2 - 1) 0 + s.getD (n / 2) 0) / 2

/-- Minimum of a list of integers (0 on the empty list); models ndarray.min. -/
def minListI : List ℤ → ℤ
  | [] => 0
  | x :: xs => xs.foldl min x

/-- Maximum of a list of integers (0 on the empty list); models ndarray.max. -/
def maxListI : List ℤ → ℤ
  | [] => 0
  | x :: xs => xs.foldl max x

/-- The integer interval [lo, hi) as a list; models numpy.arange(lo, hi) on
integer-valued endpoints with the default unit step. -/
def intRange (lo hi : ℤ) : List ℤ :=
  (List.range (hi - lo).toNat).map (fun k : ℕ => lo + (k : ℤ))

/-- One-dimensional piecewise linear interpolation with clamping outside the
sample range; models numpy.interp for ascending sample points xp. -/
def interp1 : List ℚ → List ℚ → ℚ → ℚ
  | x1 :: x2 :: xs, f1 :: f2 :: fs, x =>
    if x ≤ x1 then f1
    else if x ≤ x2 then f1 + (f2 - f1) * (x - x1) / (x2 - x1)
    else interp1 (x2 :: xs) (f2 :: fs) x
  | _ :: _, f1 :: _, _ => f1
  | _, _, _ => 0

/-- Boolean-mask selection; models numpy boolean indexing xs[mask] for a mask
of the same length as xs. -/
def maskFilter (mask : List Bool) (xs : List ℚ) : List ℚ :=
  ((mask.zip xs).filter (fun p => p.1)).map (fun p => p.2)

/-- Zero-extended indexing into a list by a (possibly negative) integer. -/
def getQ (xs : List ℚ) (i : ℤ) : ℚ :=
  if 0 ≤ i ∧ i < (xs.length : ℤ) then xs.getD i.toNat 0 else 0

/-- Comparison of (time, flux) pairs by time, used to model numpy.argsort
applied to the time column followed by fancy indexing of both columns. -/
def leFst (p q : ℚ × ℚ) : Prop := p.1 ≤ q.1

instance : DecidableRel leFst := fun p q => inferInstanceAs (Decidable (p.1 ≤ q.1))

instance : IsTotal (ℚ × ℚ) leFst := ⟨fun p q => le_total p.1 q.1⟩

instance : IsTrans (ℚ × ℚ) leFst := ⟨fun _ _ _ h h2 => le_trans h h2⟩

/-- The inferred cadence spacing dt = median(diff(times)) of
interpolate_missing_data. -/
def imdDt (times : List ℚ) : ℚ := median (diffList times)

/-- The rounded integer cadence indices np.rint((times - times[0]) / dt) of
interpolate_missing_data. -/
def imdCad (times : List ℚ) : List ℤ :=
  times.map (fun t => rint ((t - times.headD 0) / imdDt times))

/-- The missing cadence indices of interpolate_missing_data: the set difference
of np.arange(indices.min(), indices.max()) and the observed indices, kept in
ascending order. -/
def imdMissing (times : List ℚ) : List ℤ :=
  (intRange (minListI (imdCad times)) (maxListI (imdCad times))).filter
    (fun i => decide (i ∉ imdCad times))

/-- The times of the missing cadences, first_time + index * dt. -/
def imdMissingTimes (times : List ℚ) : List ℚ :=
  (imdMissing times).map (fun i : ℤ => times.headD 0 + (i : ℚ) * imdDt times)

/-- The concatenation of the observed (time, flux) pairs with the interpolated
(missing time, np.interp flux) pairs, before the final argsort. -/
def imdPairs (times fluxes : List ℚ) : List (ℚ × ℚ) :=
  times.zip fluxes ++
    (imdMissingTimes times).zip
      ((imdMissingTimes times).map (fun t => interp1 times fluxes t))

/-- Shallow embedding of interpolate_missing_data: infer dt as the median of
consecutive time differences, round each time to an integer cadence index, fill
the index gaps by linear interpolation and re-sort the combined series by time.
The numpy argsort step is modelled by a sort of the (time, flux) pairs on the
time coordinate. -/
def interpolate_missing_data (times fluxes : List ℚ) : List ℚ × List ℚ :=
  let sorted := List.insertionSort leFst (imdPairs times fluxes)
  (sorted.map Prod.fst, sorted.map Prod.snd)

/-- Full linear cross-correlation; models numpy.correlate(a, v, mode="full"):
entry m is the sum over n of a(n + m - (len(v) - 1)) * v(n), indices outside a
contributing zero. -/
def correlateFull (a v : List ℚ) : List ℚ :=
  (List.range (a.length + v.length - 1)).map (fun m : ℕ =>
    ∑ n ∈ Finset.range v.length,
      getQ a ((n : ℤ) + (m : ℤ) - ((v.length : ℤ) - 1)) * v.getD n 0)

/-- Shallow embedding of autocorrelation: the full self-correlation, keeping
the second half result[result.size // 2 :] (the non-negative lags). -/
def autocorrelation (x : List ℚ) : List ℚ :=
  let result := correlateFull x x
  result.drop (result.length / 2)

/-- Shallow embedding of interpolated_acf: reject input whose times are not in
chronological order (np.sort(times) == times), interpolate the missing data,
build the lag grid dt * arange(N) and compute the ACF.  The ValueError raise is
modelled by Except.error. -/
def interpolated_acf (times fluxes : List ℚ) :
    Except String (List ℚ × List ℚ) :=
  if npSort times ≠ times then
    Except.error "Arrays must be in chronological order to compute ACF"
  else
    let p := interpolate_missing_data times fluxes
    let dt := median (diffList p.1)
    let lag := (List.range p.2.length).map (fun i : ℕ => dt * (i : ℚ))
    Except.ok (lag, autocorrelation p.2)

/-- The bounds-filtering step of dominant_period: with min given keep entries
whose lag is strictly greater than min, with max given keep entries whose lag
is strictly less than max, the same boolean mask being applied to the lag and
acf copies.  Returns (lag_limited, acf_limited). -/
def limited (mn mx : Option ℚ) (lag acf : List ℚ) : List ℚ × List ℚ :=
  match mn, mx with
  | some m, none =>
    let mask := lag.map (fun t => decide (m < t))
    (maskFilter mask lag, maskFilter mask acf)
  | none, some mM =>
    let mask := lag.map (fun t => decide (t < mM))
    (maskFilter mask lag, maskFilter mask acf)
  | some m, some mM =>
    let mask := lag.map (fun t => decide (t < mM) && decide (m < t))
    (maskFilter mask lag, maskFilter mask acf)
  | none, none => (lag, acf)

/-- Indices of strict local maxima; models scipy.signal.argrelmax with the
default order 1 and clip boundary mode, under which the two endpoints are never
candidates. -/
def argrelmax (xs : List ℚ) : List ℕ :=
  (List.range xs.length).filter (fun i =>
    decide (0 < i) && decide (i + 1 < xs.length) &&
    decide (xs.getD (i - 1) 0 < xs.getD i 0) &&
    decide (xs.getD (i + 1) 0 < xs.getD i 0))

/-- Tail-recursive worker for argmaxList: i is the index of the head of the
remaining list, best the index of the running maximum bv; a later element
replaces the running maximum only when strictly greater, so the first
occurrence of the maximum wins. -/
def argmaxAux : List ℚ → ℚ → ℕ → ℕ → ℕ
  | [], _, _, best => best
  | x :: xs, bv, i, best =>
    if bv < x then argmaxAux xs x (i + 1) i
    else argmaxAux xs bv (i + 1) best

/-- Index of the first occurrence of the maximum value (0 on the empty list);
models numpy.argmax on 1-D input. -/
def argmaxList : List ℚ → ℕ
  | [] => 0
  | x :: xs => argmaxAux xs x 1 0

/-- Result of dominant_period: the np.nan sentinel becomes none, and the
NoPeriodFoundWarning diagnostic becomes the warned flag. -/
structure DPResult where
  period : Option ℚ
  warned : Bool
deriving DecidableEq, Repr

/-- The smoothed acf of dominant_period: the external gaussian filter gf
applied to the sigma = fwhm / 2.355 and truncate = window / sigma computed by
the source and to the bounds-limited acf. -/
def smoothACF (gf : ℚ → ℚ → List ℚ → List ℚ)
    (lag acf : List ℚ) (mn mx : Option ℚ) (fwhm window : ℚ) : List ℚ :=
  let sigma := fwhm / (2355 / 1000)
  let truncate := window / sigma
  gf sigma truncate (limited mn mx lag acf).2

/-- Shallow embedding of dominant_period.  The scipy.ndimage.gaussian_filter
call is external library code and is passed in as the function gf (see
smoothACF).  The function is total: the source body contains no raise
statement, returning np.nan (here none) in the no-peak branch and warning
unless quiet is set. -/
def dominant_period (gf : ℚ → ℚ → List ℚ → List ℚ)
    (lag acf : List ℚ) (mn mx : Option ℚ) (fwhm window : ℚ)
    (quiet : Bool) : DPResult :=
  let lag_limited := (limited mn mx lag acf).1
  let smooth_acf := smoothACF gf lag acf mn mx fwhm window
  let relative_maxes := argrelmax smooth_acf
  if relative_maxes.isEmpty then
    ⟨none, !quiet⟩
  else
    let vals := relative_maxes.map (fun i => smooth_acf.getD i 0)
    let absolute_max_index := relative_maxes.getD (argmaxList vals) 0
    ⟨some (lag_limited.getD absolute_max_index 0), false⟩

/-- A heap of array cells, modelling numpy buffers with identity: a reference
is an index into the heap, and reading an absent reference yields the empty
array. -/
abbrev Heap := List (List ℚ)

/-- Read the array held by a reference. -/
def readH (h : Heap) (r : ℕ) : List ℚ := h.getD r []

/-- Allocate a fresh cell holding the given array, returning the new heap and
a reference to the cell. -/
def allocH (h : Heap) (a : List ℚ) : Heap × ℕ := (h ++ [a], h.length)

/-- Overwrite the array held by an existing reference, as an in-place numpy
assignment would.  No statement in the body of dominant_period performs such a
write. -/
def writeH (h : Heap) (r : ℕ) (a : List ℚ) : Heap := h.set r a

/-- Heap-level embedding of the dominant_period body, making the allocation
behaviour of each numpy call explicit: np.copy, boolean indexing and
gaussian_filter each return a freshly allocated array, so every statement
allocates a new cell and rebinds a local name; the caller's lag and acf cells
are only ever read. -/
def dominant_period_heap (gf : ℚ → ℚ → List ℚ → List ℚ)
    (h : Heap) (lagRef acfRef : ℕ) (mn mx : Option ℚ) (fwhm window : ℚ)
    (quiet : Bool) : Heap × DPResult :=
  let a1 := allocH h (readH h lagRef)
  let a2 := allocH a1.1 (readH h acfRef)
  let lim := limited mn mx (readH a2.1 a1.2) (readH a2.1 a2.2)
  let a3 := allocH a2.1 lim.2
  let a4 := allocH a3.1 lim.1
  let sigma := fwhm / (2355 / 1000)
  let a5 := allocH a4.1 (gf sigma (window / sigma) (readH a4.1 a3.2))
  let smooth_acf := readH a5.1 a5.2
  let relative_maxes := argrelmax smooth_acf
  if relative_maxes.isEmpty then (a5.1, ⟨none, !quiet⟩)
  else
    let vals := relative_maxes.map (fun i => smooth_acf.getD i 0)
    let idx := relative_maxes.getD (argmaxList vals) 0
    (a5.1, ⟨some ((readH a5.1 a4.2).getD idx 0), false⟩)

/-- The specification of numpy.argmax: the index is in range, its value is
maximal and every strictly earlier value is strictly smaller (first occurrence
of the maximum). -/
def IsArgmax (l : List ℚ) (j : ℕ) : Prop :=
  j < l.length ∧ (∀ k, k < l.length → l.getD k 0 ≤ l.getD j 0) ∧
    ∀ k, k < j → l.getD k 0 < l.getD j 0

/-! Helper lemmas about the numpy primitive models. -/

theorem maskFilter_cons (b : Bool) (m : List Bool) (x : ℚ) (xs : List ℚ) :
    maskFilter (b :: m) (x :: xs) =
      if b then x :: maskFilter m xs else maskFilter m xs := by
  by_cases h : b <;> simp [maskFilter, h]

theorem maskFilter_map_self (f : ℚ → Bool) :
    ∀ xs : List ℚ, maskFilter (xs.map f) xs = xs.filter f
  | [] => rfl
  | x :: xs => by
    by_cases h : f x <;>
      simp [maskFilter_cons, List.filter_cons, h, maskFilter_map_self f xs]

theorem maskFilter_length_eq :
    ∀ (m : List Bool) (xs ys : List ℚ), xs.length = ys.length →
      (maskFilter m xs).length = (maskFilter m ys).length
  | [], _, _, _ => by simp [maskFilter]
  | _ :: _, [], [], _ => by simp [maskFilter]
  | _ :: _, [], _ :: _, h => by simp at h
  | _ :: _, _ :: _, [], h => by simp at h
  | b :: m, x :: xs, y :: ys, h => by
    have ih := maskFilter_length_eq m xs ys (by simpa using h)
    by_cases hb : b <;> simp [maskFilter_cons, hb, ih]

theorem mem_maskFilter_self (f : ℚ → Bool) {x : ℚ} {xs : List ℚ}
    (h : x ∈ maskFilter (xs.map f) xs) : f x = true := by
  rw [maskFilter_map_self] at h
  exact (List.mem_filter.1 h).2

theorem mem_argrelmax {xs : List ℚ} {i : ℕ} :
    i ∈ argrelmax xs ↔
      0 < i ∧ i + 1 < xs.length ∧
        xs.getD (i - 1) 0 < xs.getD i 0 ∧ xs.getD (i + 1) 0 < xs.getD i 0 := by
  unfold argrelmax
  simp only [List.mem_filter, List.mem_range, Bool.and_eq_true, decide_eq_true_eq]
  constructor
  · rintro ⟨-, ⟨⟨h1, h2⟩, h3⟩, h4⟩
    exact ⟨h1, h2, h3, h4⟩
  · rintro ⟨h1, h2, h3, h4⟩
    exact ⟨by omega, ⟨⟨h1, h2⟩, h3⟩, h4⟩

theorem argrelmax_pairwise (xs : List ℚ) : (argrelmax xs).Pairwise (· < ·) :=
  List.Pairwise.filter _ (List.sorted_lt_range _)

theorem argmaxAux_isArgmax : ∀ (d : ℕ) (L : List ℚ) (i best : ℕ),
    L.length - i = d → best < i → i ≤ L.length →
    (∀ k, k < i → L.getD k 0 ≤ L.getD best 0) →
    (∀ k, k < best → L.getD k 0 < L.getD best 0) →
    IsArgmax L (argmaxAux (L.drop i) (L.getD best 0) i best)
  | 0, L, i, best, hd, hbi, hiL, hmax, hfirst => by
    have hi : i = L.length := by omega
    subst hi
    rw [List.drop_length]
    show IsArgmax L best
    exact ⟨by omega, fun k hk => hmax k hk, hfirst⟩
  | d + 1, L, i, best, hd, hbi, hiL, hmax, hfirst => by
    have hiL2 : i < L.length := by omega
    have hLi : L[i] = L.getD i 0 := (List.getD_eq_getElem L 0 hiL2).symm
    rw [List.drop_eq_getElem_cons hiL2, hLi]
    have hstep : argmaxAux (L.getD i 0 :: L.drop (i + 1)) (L.getD best 0) i best =
        if L.getD best 0 < L.getD i 0 then argmaxAux (L.drop (i + 1)) (L.getD i 0) (i + 1) i
        else argmaxAux (L.drop (i + 1)) (L.getD best 0) (i + 1) best := rfl
    rw [hstep]
    by_cases hlt : L.getD best 0 < L.getD i 0
    · rw [if_pos hlt]
      exact argmaxAux_isArgmax d L (i + 1) i (by omega) (by omega) (by omega)
        (fun k hk => by
          rcases Nat.lt_succ_iff_lt_or_eq.1 hk with hk2 | hk2
          · exact le_of_lt (lt_of_le_of_lt (hmax k hk2) hlt)
          · subst hk2; exact le_refl _)
        (fun k hk => lt_of_le_of_lt (hmax k hk) hlt)
    · rw [if_neg hlt]
      exact argmaxAux_isArgmax d L (i + 1) best (by omega) (by omega) (by omega)
        (fun k hk => by
          rcases Nat.lt_succ_iff_lt_or_eq.1 hk with hk2 | hk2
          · exact hmax k hk2
          · subst hk2; exact le_of_not_lt hlt)
        hfirst

theorem argmaxList_isArgmax : ∀ (l : List ℚ), l ≠ [] → IsArgmax l (argmaxList l)
  | [], h => absurd rfl h
  | x :: xs, _ => by
    have h := argmaxAux_isArgmax xs.length (x :: xs) 1 0 (by simp) (by omega)
      (by simp)
      (fun k hk => by
        have hk0 : k = 0 := by omega
        subst hk0; exact le_refl _)
      (fun k hk => absurd hk (by omega))
    simpa [argmaxList, argmaxAux] using h

/-- Specification of the peak-selection expression
relative_maxes[np.argmax(smooth_acf[relative_maxes])] of dominant_period over
an arbitrary smoothed sequence s: the selected index is a strict local
maximum, its value is maximal among the local maxima, and every local maximum
strictly before it has a strictly smaller value (first-occurrence
tie-breaking). -/
theorem select_spec (s : List ℚ) (hne : argrelmax s ≠ []) :
    (argrelmax s).getD
        (argmaxList ((argrelmax s).map (fun i => s.getD i 0))) 0 ∈ argrelmax s ∧
      (∀ r ∈ argrelmax s, s.getD r 0 ≤
        s.getD ((argrelmax s).getD
          (argmaxList ((argrelmax s).map (fun i => s.getD i 0))) 0) 0) ∧
      (∀ r ∈ argrelmax s,
        r < (argrelmax s).getD
            (argmaxList ((argrelmax s).map (fun i => s.getD i 0))) 0 →
          s.getD r 0 <
            s.getD ((argrelmax s).getD
              (argmaxList ((argrelmax s).map (fun i => s.getD i 0))) 0) 0) := by
  set maxes := argrelmax s with hmaxes
  set vals := maxes.map (fun i => s.getD i 0) with hvals
  have hvne : vals ≠ [] := by
    simp only [hvals, ne_eq, List.map_eq_nil_iff]
    exact hne
  have ham := argmaxList_isArgmax vals hvne
  set p := argmaxList vals with hp
  have hvlen : vals.length = maxes.length := by rw [hvals, List.length_map]
  have hplt : p < maxes.length := hvlen ▸ ham.1
  have hgetD : ∀ q, q < maxes.length →
      vals.getD q 0 = s.getD (maxes.getD q 0) 0 := by
    intro q hq
    rw [List.getD_eq_getElem vals 0 (hvlen ▸ hq), List.getD_eq_getElem maxes 0 hq]
    simp only [hvals, List.getElem_map]
  refine ⟨?_, ?_, ?_⟩
  · rw [List.getD_eq_getElem maxes 0 hplt]
    exact List.getElem_mem _
  · intro r hr
    obtain ⟨pr, hprlt, hpr0⟩ := List.mem_iff_getElem.1 hr
    have hpr : maxes.getD pr 0 = r := by
      rw [List.getD_eq_getElem maxes 0 hprlt]; exact hpr0
    have h1 : vals.getD pr 0 = s.getD r 0 := by rw [hgetD pr hprlt, hpr]
    have h2 := hgetD p hplt
    have h3 := ham.2.1 pr (hvlen ▸ hprlt)
    rw [h1, h2] at h3
    exact h3
  · intro r hr hrj
    obtain ⟨pr, hprlt, hpr0⟩ := List.mem_iff_getElem.1 hr
    have hpr : maxes.getD pr 0 = r := by
      rw [List.getD_eq_getElem maxes 0 hprlt]; exact hpr0
    have hmp : maxes.Pairwise (· < ·) := by
      rw [hmaxes]; exact argrelmax_pairwise s
    have hprp : pr < p := by
      rcases lt_trichotomy pr p with h | h | h
      · exact h
      · exfalso
        have heq : maxes.getD p 0 = r := h ▸ hpr
        rw [heq] at hrj
        exact lt_irrefl r hrj
      · exfalso
        have hlt2 : maxes.getD p 0 < maxes.getD pr 0 := by
          rw [List.getD_eq_getElem maxes 0 hplt, List.getD_eq_getElem maxes 0 hprlt]
          exact List.pairwise_iff_getElem.1 hmp p pr hplt hprlt h
        rw [hpr] at hlt2
        omega
    have h1 : vals.getD pr 0 = s.getD r 0 := by rw [hgetD pr hprlt, hpr]
    have h2 := hgetD p hplt
    have h3 := ham.2.2 pr hprp
    rw [h1, h2] at h3
    exact h3

/-- The value dominant_period returns when the peak list is nonempty, written
with the explicit selection index. -/
theorem dominant_period_of_ne (gf : ℚ → ℚ → List ℚ → List ℚ) (lag acf : List ℚ)
    (mn mx : Option ℚ) (fwhm window : ℚ) (quiet : Bool)
    (hne : argrelmax (smoothACF gf lag acf mn mx fwhm window) ≠ []) :
    dominant_period gf lag acf mn mx fwhm window quiet =
      ⟨some ((limited mn mx lag acf).1.getD
        ((argrelmax (smoothACF gf lag acf mn mx fwhm window)).getD
          (argmaxList ((argrelmax (smoothACF gf lag acf mn mx fwhm window)).map
            (fun i => (smoothACF gf lag acf mn mx fwhm window).getD i 0))) 0) 0),
       false⟩ := by
  have hemp : (argrelmax (smoothACF gf lag acf mn mx fwhm window)).isEmpty = false := by
    cases hm : argrelmax (smoothACF gf lag acf mn mx fwhm window)
    · exact absurd hm hne
    · rfl
  simp only [dominant_period, hemp, Bool.false_eq_true, if_false]

/-- The no-peak branch of dominant_period: the nan sentinel is returned and
the warning is emitted exactly when quiet is not set. -/
theorem dominant_period_of_empty (gf : ℚ → ℚ → List ℚ → List ℚ)
    (lag acf : List ℚ) (mn mx : Option ℚ) (fwhm window : ℚ) (quiet : Bool)
    (h : argrelmax (smoothACF gf lag acf mn mx fwhm window) = []) :
    dominant_period gf lag acf mn mx fwhm window quiet = ⟨none, !quiet⟩ := by
  simp [dominant_period, h]

theorem maskFilter_zip (f : ℚ → Bool) :
    ∀ (xs ys : List ℚ), xs.length = ys.length →
      (maskFilter (xs.map f) xs).zip (maskFilter (xs.map f) ys) =
        (xs.zip ys).filter (fun p => f p.1)
  | [], [], _ => rfl
  | [], _ :: _, h => by simp at h
  | _ :: _, [], h => by simp at h
  | x :: xs, y :: ys, h => by
    have ih := maskFilter_zip f xs ys (by simpa using h)
    by_cases hb : f x <;>
      simp [maskFilter_cons, List.filter_cons, hb, List.zip_cons_cons, ih]

theorem limited_length (mn mx : Option ℚ) (lag acf : List ℚ)
    (hlen : lag.length = acf.length) :
    (limited mn mx lag acf).1.length = (limited mn mx lag acf).2.length := by
  cases mn <;> cases mx <;>
    first
      | exact hlen
      | exact maskFilter_length_eq _ lag acf hlen

/-- A period returned by dominant_period is an element of the bounds-limited
lag array. -/
theorem dp_period_mem (gf : ℚ → ℚ → List ℚ → List ℚ) (lag acf : List ℚ)
    (mn mx : Option ℚ) (fwhm window : ℚ) (quiet : Bool) (p : ℚ)
    (hlen : lag.length = acf.length)
    (hgf : ∀ s t xs, (gf s t xs).length = xs.length)
    (hp : (dominant_period gf lag acf mn mx fwhm window quiet).period = some p) :
    p ∈ (limited mn mx lag acf).1 := by
  by_cases hne : argrelmax (smoothACF gf lag acf mn mx fwhm window) = []
  · rw [dominant_period_of_empty gf lag acf mn mx fwhm window quiet hne] at hp
    exact absurd hp (by simp)
  · rw [dominant_period_of_ne gf lag acf mn mx fwhm window quiet hne] at hp
    have hpeq : (limited mn mx lag acf).1.getD
        ((argrelmax (smoothACF gf lag acf mn mx fwhm window)).getD
          (argmaxList ((argrelmax (smoothACF gf lag acf mn mx fwhm window)).map
            (fun i => (smoothACF gf lag acf mn mx fwhm window).getD i 0))) 0) 0 = p := by
      simpa using hp
    have hJmem := (select_spec _ hne).1
    have hJlt := (mem_argrelmax.1 hJmem).2.1
    have hsl : (smoothACF gf lag acf mn mx fwhm window).length =
        (limited mn mx lag acf).2.length := hgf _ _ _
    have hJlag : (argrelmax (smoothACF gf lag acf mn mx fwhm window)).getD
        (argmaxList ((argrelmax (smoothACF gf lag acf mn mx fwhm window)).map
          (fun i => (smoothACF gf lag acf mn mx fwhm window).getD i 0))) 0 <
        (limited mn mx lag acf).1.length := by
      rw [limited_length mn mx lag acf hlen]
      omega
    rw [← hpeq, List.getD_eq_getElem _ 0 hJlag]
    exact List.getElem_mem _

theorem npSort_eq_self_iff (xs : List ℚ) :
    npSort xs = xs ↔ xs.Pairwise (· ≤ ·) := by
  constructor
  · intro h
    rw [← h]
    exact List.sorted_insertionSort _ xs
  · intro h
    exact List.Sorted.insertionSort_eq h

theorem readH_append {h1 : Heap} (t : Heap) {r : ℕ} (hr : r < h1.length) :
    readH (h1 ++ t) r = readH h1 r :=
  List.getD_append _ _ _ _ hr

theorem dominant_period_heap_fst (gf : ℚ → ℚ → List ℚ → List ℚ) (h : Heap)
    (lagRef acfRef : ℕ) (mn mx : Option ℚ) (fwhm window : ℚ) (quiet : Bool) :
    ∃ t, (dominant_period_heap gf h lagRef acfRef mn mx fwhm window quiet).1 = h ++ t := by
  unfold dominant_period_heap
  dsimp only [allocH]
  split
  · exact ⟨_, by rw [List.append_assoc, List.append_assoc, List.append_assoc,
      List.append_assoc]⟩
  · exact ⟨_, by rw [List.append_assoc, List.append_assoc, List.append_assoc,
      List.append_assoc]⟩

theorem correlateFull_length (a v : List ℚ) :
    (correlateFull a v).length = a.length + v.length - 1 := by
  simp [correlateFull]

theorem autocorrelation_length (x : List ℚ) :
    (autocorrelation x).length = x.length := by
  unfold autocorrelation
  rw [List.length_drop, correlateFull_length]
  omega

theorem correlateFull_getD (a v : List ℚ) (m : ℕ)
    (hm : m < a.length + v.length - 1) :
    (correlateFull a v).getD m 0 =
      ∑ n ∈ Finset.range v.length,
        getQ a ((n : ℤ) + (m : ℤ) - ((v.length : ℤ) - 1)) * v.getD n 0 := by
  unfold correlateFull
  rw [List.getD_eq_getElem _ 0 (by simpa using hm), List.getElem_map,
    List.getElem_range]

theorem autocorrelation_getD (x : List ℚ) (i : ℕ) (hi : i < x.length) :
    (autocorrelation x).getD i 0 =
      ∑ k ∈ Finset.range (x.length - i), x.getD k 0 * x.getD (k + i) 0 := by
  have hN : 1 ≤ x.length := by omega
  have hlen := correlateFull_length x x
  have hhalf : (correlateFull x x).length / 2 = x.length - 1 := by
    rw [hlen]; omega
  have hidx : x.length - 1 + i < x.length + x.length - 1 := by omega
  have hgd : (autocorrelation x).getD i 0 =
      (correlateFull x x).getD (x.length - 1 + i) 0 := by
    unfold autocorrelation
    dsimp only
    rw [hhalf]
    have h2 : i < ((correlateFull x x).drop (x.length - 1)).length := by
      rw [List.length_drop, hlen]; omega
    rw [List.getD_eq_getElem _ 0 h2, List.getElem_drop,
      List.getD_eq_getElem _ 0 (by rw [hlen]; omega)]
  rw [hgd, correlateFull_getD x x _ hidx]
  have hterm : ∀ n ∈ Finset.range x.length,
      getQ x ((n : ℤ) + ((x.length - 1 + i : ℕ) : ℤ) - ((x.length : ℤ) - 1)) *
          x.getD n 0 =
        if n + i < x.length then x.getD (n + i) 0 * x.getD n 0 else 0 := by
    intro n hn
    have hidx2 : (n : ℤ) + ((x.length - 1 + i : ℕ) : ℤ) - ((x.length : ℤ) - 1) =
        ((n + i : ℕ) : ℤ) := by
      push_cast
      omega
    rw [hidx2]
    unfold getQ
    by_cases hc : n + i < x.length
    · rw [if_pos ⟨Int.natCast_nonneg _, by exact_mod_cast hc⟩, if_pos hc,
        Int.toNat_natCast]
    · rw [if_neg (by push_cast; omega), if_neg hc, zero_mul]
  rw [Finset.sum_congr rfl hterm]
  have hsub : Finset.range (x.length - i) ⊆ Finset.range x.length :=
    Finset.range_subset.2 (by omega)
  have hzero : ∀ k ∈ Finset.range x.length, k ∉ Finset.range (x.length - i) →
      (if k + i < x.length then x.getD (k + i) 0 * x.getD k 0 else 0) = 0 := by
    intro k hk hnk
    rw [if_neg (by simp only [Finset.mem_range] at hk hnk; omega)]
  rw [← Finset.sum_subset hsub hzero]
  exact Finset.sum_congr rfl (fun k hk => by
    have hk2 : k + i < x.length := by
      have := Finset.mem_range.1 hk; omega
    rw [if_pos hk2, mul_comm])

theorem interpolated_acf_ok {times fluxes lag acf : List ℚ}
    (h : interpolated_acf times fluxes = Except.ok (lag, acf)) :
    lag = (List.range (interpolate_missing_data times fluxes).2.length).map
        (fun i : ℕ =>
          median (diffList (interpolate_missing_data times fluxes).1) * (i : ℚ)) ∧
      acf = autocorrelation (interpolate_missing_data times fluxes).2 := by
  unfold interpolated_acf at h
  by_cases hc : npSort times ≠ times
  · rw [if_pos hc] at h
    exact Except.noConfusion h
  · rw [if_neg hc] at h
    dsimp only at h
    injection h with h2
    exact ⟨(congrArg Prod.fst h2).symm, (congrArg Prod.snd h2).symm⟩

theorem diffList_length (xs : List ℚ) : (diffList xs).length = xs.length - 1 := by
  simp only [diffList, List.length_map, List.length_zip, List.length_tail]
  omega

theorem diffList_getElem (xs : List ℚ) (i : ℕ) (hi : i < (diffList xs).length) :
    (diffList xs)[i] = xs.getD (i + 1) 0 - xs.getD i 0 := by
  have hx : i + 1 < xs.length := by
    have := diffList_length xs; omega
  rw [List.getD_eq_getElem _ 0 hx, List.getD_eq_getElem _ 0 (by omega)]
  simp [diffList, List.getElem_zip, List.getElem_tail]

theorem diffList_grid (g0 d : ℚ) (n : ℕ) :
    diffList ((List.range n).map (fun i : ℕ => g0 + (i : ℚ) * d)) =
      List.replicate (n - 1) d := by
  apply List.ext_getElem
  · rw [diffList_length, List.length_map, List.length_range, List.length_replicate]
  · intro i h1 h2
    rw [diffList_getElem _ _ h1, List.getElem_replicate]
    have hi1 : i + 1 < n := by
      rw [diffList_length, List.length_map, List.length_range] at h1
      omega
    rw [List.getD_eq_getElem _ 0 (by simpa using hi1),
      List.getD_eq_getElem _ 0 (by simp; omega)]
    simp only [List.getElem_map, List.getElem_range]
    push_cast
    ring

theorem median_replicate (m : ℕ) (d : ℚ) (hm : 1 ≤ m) :
    median (List.replicate m d) = d := by
  have hsort : npSort (List.replicate m d) = List.replicate m d :=
    List.Sorted.insertionSort_eq (List.pairwise_replicate.2 (Or.inr le_rfl))
  unfold median
  rw [hsort]
  simp only [List.length_replicate]
  by_cases hodd : m % 2 = 1
  · rw [if_pos hodd,
      List.getD_eq_getElem _ 0 (by rw [List.length_replicate]; omega),
      List.getElem_replicate]
  · rw [if_neg hodd,
      List.getD_eq_getElem _ 0 (by rw [List.length_replicate]; omega),
      List.getD_eq_getElem _ 0 (by rw [List.length_replicate]; omega),
      List.getElem_replicate, List.getElem_replicate]
    ring

theorem rint_intCast (z : ℤ) : rint ((z : ℚ)) = z := by
  unfold rint
  rw [Int.floor_intCast]
  dsimp only
  rw [sub_self, if_pos (by norm_num)]

theorem rint_nonneg {q : ℚ} (hq : 0 ≤ q) : 0 ≤ rint q := by
  have hf : 0 ≤ ⌊q⌋ := Int.floor_nonneg.2 hq
  unfold rint
  dsimp only
  split
  · exact hf
  · split
    · omega
    · split
      · exact hf
      · omega

theorem rint_le_half (q : ℚ) : (rint q : ℚ) ≤ q + 1 / 2 := by
  have hfloor : (⌊q⌋ : ℚ) ≤ q := Int.floor_le q
  have hlt : q < ⌊q⌋ + 1 := Int.lt_floor_add_one q
  unfold rint
  dsimp only
  split
  · linarith
  · next h =>
    have h2 : 1 / 2 ≤ q - (⌊q⌋ : ℚ) := not_lt.1 h
    split
    · push_cast
      linarith
    · split
      · linarith
      · push_cast
        linarith

theorem foldl_min_le_init : ∀ (l : List ℤ) (a : ℤ), l.foldl min a ≤ a
  | [], a => le_refl a
  | x :: l, a => le_trans (foldl_min_le_init l (min a x)) (min_le_left a x)

theorem foldl_min_le_mem : ∀ (l : List ℤ) (a x : ℤ), x ∈ l → l.foldl min a ≤ x
  | y :: l, a, x, hx => by
    rcases List.mem_cons.1 hx with h | h
    · subst h
      exact le_trans (foldl_min_le_init l (min a x)) (min_le_right a x)
    · exact foldl_min_le_mem l (min a y) x h

theorem foldl_min_mem : ∀ (l : List ℤ) (a : ℤ), l.foldl min a = a ∨ l.foldl min a ∈ l
  | [], a => Or.inl rfl
  | x :: l, a => by
    rcases foldl_min_mem l (min a x) with h | h
    · rcases min_choice a x with hm | hm
      · left; rw [List.foldl_cons, h, hm]
      · right; rw [List.foldl_cons, h, hm]; exact List.mem_cons_self x l
    · right; exact List.mem_cons_of_mem x h

theorem minListI_mem : ∀ {l : List ℤ}, l ≠ [] → minListI l ∈ l
  | [], h => absurd rfl h
  | x :: l, _ => by
    rcases foldl_min_mem l x with h | h
    · rw [minListI, h]; exact List.mem_cons_self x l
    · rw [minListI]; exact List.mem_cons_of_mem x h

theorem minListI_le : ∀ {l : List ℤ} {x : ℤ}, x ∈ l → minListI l ≤ x := by
  intro l x hx
  cases l with
  | nil => exact absurd hx (List.not_mem_nil x)
  | cons y l =>
    rcases List.mem_cons.1 hx with h | h
    · subst h; exact foldl_min_le_init l x
    · exact foldl_min_le_mem l y x h

theorem foldl_max_init_le : ∀ (l : List ℤ) (a : ℤ), a ≤ l.foldl max a
  | [], a => le_refl a
  | x :: l, a => le_trans (le_max_left a x) (foldl_max_init_le l (max a x))

theorem foldl_max_mem_le : ∀ (l : List ℤ) (a x : ℤ), x ∈ l → x ≤ l.foldl max a
  | y :: l, a, x, hx => by
    rcases List.mem_cons.1 hx with h | h
    · subst h
      exact le_trans (le_max_right a x) (foldl_max_init_le l (max a x))
    · exact foldl_max_mem_le l (max a y) x h

theorem foldl_max_mem : ∀ (l : List ℤ) (a : ℤ), l.foldl max a = a ∨ l.foldl max a ∈ l
  | [], a => Or.inl rfl
  | x :: l, a => by
    rcases foldl_max_mem l (max a x) with h | h
    · rcases max_choice a x with hm | hm
      · left; rw [List.foldl_cons, h, hm]
      · right; rw [List.foldl_cons, h, hm]; exact List.mem_cons_self x l
    · right; exact List.mem_cons_of_mem x h

theorem maxListI_mem : ∀ {l : List ℤ}, l ≠ [] → maxListI l ∈ l
  | [], h => absurd rfl h
  | x :: l, _ => by
    rcases foldl_max_mem l x with h | h
    · rw [maxListI, h]; exact List.mem_cons_self x l
    · rw [maxListI]; exact List.mem_cons_of_mem x h

theorem le_maxListI : ∀ {l : List ℤ} {x : ℤ}, x ∈ l → x ≤ maxListI l := by
  intro l x hx
  cases l with
  | nil => exact absurd hx (List.not_mem_nil x)
  | cons y l =>
    rcases List.mem_cons.1 hx with h | h
    · subst h; exact foldl_max_init_le l x
    · exact foldl_max_mem_le l y x h

theorem mem_intRange {lo hi i : ℤ} : i ∈ intRange lo hi ↔ lo ≤ i ∧ i < hi := by
  unfold intRange
  simp only [List.mem_map, List.mem_range]
  constructor
  · rintro ⟨k, hk, rfl⟩
    omega
  · rintro ⟨h1, h2⟩
    exact ⟨(i - lo).toNat, by omega, by omega⟩

theorem intRange_pairwise (lo hi : ℤ) : (intRange lo hi).Pairwise (· < ·) :=
  List.Pairwise.map _ (fun a b (h : a < b) => by omega) (List.sorted_lt_range _)

theorem pairwise_zip_left {R : ℚ → ℚ → Prop} :
    ∀ (xs ys : List ℚ), xs.Pairwise R →
      (xs.zip ys).Pairwise (fun p q => R p.1 q.1)
  | [], ys, _ => by simp
  | x :: xs, [], _ => by simp
  | x :: xs, y :: ys, h => by
    rw [List.zip_cons_cons]
    refine List.Pairwise.cons ?_ (pairwise_zip_left xs ys (List.pairwise_cons.1 h).2)
    intro q hq
    have hq2 : (q.1, q.2) ∈ xs.zip ys := by simpa using hq
    exact (List.pairwise_cons.1 h).1 q.1 (List.of_mem_zip hq2).1

theorem grid_map_pairwise (g0 d : ℚ) (hd : 0 < d) {idxs : List ℕ}
    (h : idxs.Pairwise (· < ·)) :
    (idxs.map (fun i : ℕ => g0 + (i : ℚ) * d)).Pairwise (· < ·) :=
  List.Pairwise.map _ (fun a b hab => by
    have hab2 : (a : ℚ) < (b : ℚ) := by exact_mod_cast hab
    have := mul_lt_mul_of_pos_right hab2 hd
    linarith) h

theorem median_pos (xs : List ℚ) (hne : xs ≠ []) (hpos : ∀ x ∈ xs, 0 < x) :
    0 < median xs := by
  have hlen : (npSort xs).length = xs.length := List.length_insertionSort _ _
  have hmem : ∀ x ∈ npSort xs, 0 < x := fun x hx =>
    hpos x ((List.mem_insertionSort _).1 hx)
  have hn : 0 < (npSort xs).length := by
    rw [hlen]
    exact List.length_pos.2 hne
  unfold median
  dsimp only
  by_cases hodd : (npSort xs).length % 2 = 1
  · rw [if_pos hodd, List.getD_eq_getElem _ 0 (by omega)]
    exact hmem _ (List.getElem_mem _)
  · rw [if_neg hodd, List.getD_eq_getElem _ 0 (by omega),
      List.getD_eq_getElem _ 0 (by omega)]
    have ha := hmem _ (List.getElem_mem (by omega :
      (npSort xs).length / 2 - 1 < (npSort xs).length))
    have hb := hmem _ (List.getElem_mem (by omega :
      (npSort xs).length / 2 < (npSort xs).length))
    exact div_pos (by linarith) (by norm_num)

theorem diffList_pos (xs : List ℚ) (h : xs.Pairwise (· < ·)) :
    ∀ x ∈ diffList xs, 0 < x := by
  intro x hx
  obtain ⟨i, hi, hix⟩ := List.mem_iff_getElem.1 hx
  rw [diffList_getElem xs i hi] at hix
  have hi1 : i + 1 < xs.length := by
    have := diffList_length xs; omega
  have hlt : xs.getD i 0 < xs.getD (i + 1) 0 := by
    rw [List.getD_eq_getElem _ 0 (by omega), List.getD_eq_getElem _ 0 hi1]
    exact List.pairwise_iff_getElem.1 h i (i + 1) (by omega) hi1 (by omega)
  rw [← hix]
  linarith

theorem dt_pos (times : List ℚ) (hp : times.Pairwise (· < ·))
    (h2 : 2 ≤ times.length) : 0 < imdDt times := by
  unfold imdDt
  apply median_pos
  · have hl := diffList_length times
    intro hnil
    rw [hnil] at hl
    simp only [List.length_nil] at hl
    omega
  · exact diffList_pos times hp

theorem head_le_mem (times : List ℚ) (hp : times.Pairwise (· < ·)) :
    ∀ t ∈ times, times.headD 0 ≤ t := by
  cases times with
  | nil => exact fun t ht => absurd ht (List.not_mem_nil t)
  | cons x rest =>
    intro t ht
    rcases List.mem_cons.1 ht with h | h
    · subst h; exact le_refl _
    · exact le_of_lt (List.rel_of_pairwise_cons hp h)

theorem mem_le_last (times : List ℚ) (hp : times.Pairwise (· < ·)) :
    ∀ t ∈ times, t ≤ times.getD (times.length - 1) 0 := by
  intro t ht
  obtain ⟨k, hk, hkt⟩ := List.mem_iff_getElem.1 ht
  have hlast : times.length - 1 < times.length := by omega
  rw [List.getD_eq_getElem _ 0 hlast]
  rcases Nat.lt_or_ge k (times.length - 1) with h | h
  · rw [← hkt]
    exact le_of_lt (List.pairwise_iff_getElem.1 hp k (times.length - 1) hk hlast h)
  · have hkeq : k = times.length - 1 := by omega
    subst hkeq
    rw [← hkt]

theorem zero_mem_cad (times : List ℚ) (hne : times ≠ []) :
    (0 : ℤ) ∈ imdCad times := by
  unfold imdCad
  cases times with
  | nil => exact absurd rfl hne
  | cons x rest =>
    refine List.mem_map.2 ⟨x, List.mem_cons_self x rest, ?_⟩
    have hx : (x - (x :: rest).headD 0) / imdDt (x :: rest) = ((0 : ℤ) : ℚ) := by
      simp
    rw [hx, rint_intCast]

theorem cad_nonneg (times : List ℚ) (hp : times.Pairwise (· < ·))
    (h2 : 2 ≤ times.length) : ∀ c ∈ imdCad times, 0 ≤ c := by
  intro c hc
  obtain ⟨t, ht, htc⟩ := List.mem_map.1 hc
  rw [← htc]
  apply rint_nonneg
  apply div_nonneg
  · have := head_le_mem times hp t ht
    linarith
  · exact le_of_lt (dt_pos times hp h2)

theorem cmin_eq_zero (times : List ℚ) (hp : times.Pairwise (· < ·))
    (h2 : 2 ≤ times.length) : minListI (imdCad times) = 0 := by
  have hne : times ≠ [] := by
    intro h; rw [h] at h2; simp at h2
  have h0 := minListI_le (zero_mem_cad times hne)
  have hmem := minListI_mem (l := imdCad times) (by
    unfold imdCad
    simp only [ne_eq, List.map_eq_nil_iff]
    exact hne)
  have := cad_nonneg times hp h2 _ hmem
  omega

theorem cad_le_bound (times : List ℚ) (hp : times.Pairwise (· < ·))
    (h2 : 2 ≤ times.length) :
    ∀ c ∈ imdCad times, (c : ℚ) ≤
      (times.getD (times.length - 1) 0 - times.headD 0) / imdDt times + 1 / 2 := by
  intro c hc
  obtain ⟨t, ht, htc⟩ := List.mem_map.1 hc
  rw [← htc]
  have h1 := rint_le_half ((t - times.headD 0) / imdDt times)
  have h2d := dt_pos times hp h2
  have h3 : (t - times.headD 0) / imdDt times ≤
      (times.getD (times.length - 1) 0 - times.headD 0) / imdDt times := by
    apply (div_le_div_iff_of_pos_right h2d).2
    have := mem_le_last times hp t ht
    linarith
  linarith

theorem missing_bounds (times : List ℚ) (hp : times.Pairwise (· < ·))
    (h2 : 2 ≤ times.length) :
    ∀ i ∈ imdMissing times, 1 ≤ i ∧ (i : ℚ) <
      (times.getD (times.length - 1) 0 - times.headD 0) / imdDt times := by
  intro i hi
  unfold imdMissing at hi
  rw [List.mem_filter] at hi
  obtain ⟨hir, hid⟩ := hi
  rw [mem_intRange, cmin_eq_zero times hp h2] at hir
  have hinot : i ∉ imdCad times := by simpa using hid
  have hne : times ≠ [] := by
    intro h; rw [h] at h2; simp at h2
  have h0 : i ≠ 0 := fun h => hinot (h ▸ zero_mem_cad times hne)
  have hcadne : imdCad times ≠ [] := by
    unfold imdCad
    simpa using hne
  have hmaxb := cad_le_bound times hp h2 _ (maxListI_mem hcadne)
  refine ⟨by omega, ?_⟩
  have hi1 : (i : ℚ) ≤ (maxListI (imdCad times) : ℚ) - 1 := by
    have h3 : i ≤ maxListI (imdCad times) - 1 := by omega
    have h4 : (i : ℚ) ≤ ((maxListI (imdCad times) - 1 : ℤ) : ℚ) := by
      exact_mod_cast h3
    push_cast at h4
    linarith
  linarith

theorem missing_times_mem (times : List ℚ) (hp : times.Pairwise (· < ·))
    (h2 : 2 ≤ times.length) :
    ∀ t ∈ imdMissingTimes times,
      times.headD 0 < t ∧ t < times.getD (times.length - 1) 0 ∧ t ∉ times := by
  intro t ht
  obtain ⟨i, hi, hit⟩ := List.mem_map.1 ht
  obtain ⟨hi1, hi2⟩ := missing_bounds times hp h2 i hi
  have hd := dt_pos times hp h2
  refine ⟨?_, ?_, ?_⟩
  · rw [← hit]
    have hcast : (1 : ℚ) ≤ (i : ℚ) := by exact_mod_cast hi1
    nlinarith
  · rw [← hit]
    have := (lt_div_iff₀ hd).1 hi2
    linarith
  · rw [← hit]
    intro hmem
    have hcad : rint ((times.headD 0 + (i : ℚ) * imdDt times - times.headD 0) /
        imdDt times) ∈ imdCad times :=
      List.mem_map.2 ⟨_, hmem, rfl⟩
    have heq : (times.headD 0 + (i : ℚ) * imdDt times - times.headD 0) /
        imdDt times = ((i : ℤ) : ℚ) := by
      rw [add_sub_cancel_left]
      field_simp
    rw [heq, rint_intCast] at hcad
    unfold imdMissing at hi
    rw [List.mem_filter] at hi
    exact (by simpa using hi.2 : i ∉ imdCad times) hcad

theorem missing_times_pairwise (times : List ℚ) (hp : times.Pairwise (· < ·))
    (h2 : 2 ≤ times.length) : (imdMissingTimes times).Pairwise (· < ·) := by
  unfold imdMissingTimes
  have hd := dt_pos times hp h2
  refine List.Pairwise.map _ (fun a b (hab : a < b) => ?_) ?_
  · show times.headD 0 + (a : ℚ) * imdDt times <
      times.headD 0 + (b : ℚ) * imdDt times
    have hcast : (a : ℚ) < (b : ℚ) := by exact_mod_cast hab
    nlinarith
  · unfold imdMissing
    exact List.Pairwise.filter _ (intRange_pairwise _ _)

theorem zip_map_self (xs : List ℚ) (f : ℚ → ℚ) :
    ∀ p ∈ xs.zip (xs.map f), p.2 = f p.1 := by
  induction xs with
  | nil => simp
  | cons x xs ih =>
    intro p hp2
    rw [List.map_cons, List.zip_cons_cons] at hp2
    rcases List.mem_cons.1 hp2 with h | h
    · rw [h]
    · exact ih p h

theorem lin_between (f1 f2 x1 x2 x : ℚ) (h1 : x1 < x) (h2 : x ≤ x2) :
    min f1 f2 ≤ f1 + (f2 - f1) * (x - x1) / (x2 - x1) ∧
      f1 + (f2 - f1) * (x - x1) / (x2 - x1) ≤ max f1 f2 := by
  have hc : 0 < x2 - x1 := by linarith
  have hu0 : 0 ≤ (x - x1) / (x2 - x1) := div_nonneg (by linarith) (by linarith)
  have hu1 : (x - x1) / (x2 - x1) ≤ 1 := (div_le_one hc).2 (by linarith)
  have hv : f1 + (f2 - f1) * (x - x1) / (x2 - x1) =
      f1 + (f2 - f1) * ((x - x1) / (x2 - x1)) := by ring
  rw [hv]
  set u := (x - x1) / (x2 - x1)
  rcases le_total f1 f2 with hf | hf
  · rw [min_eq_left hf, max_eq_right hf]
    constructor <;> nlinarith
  · rw [min_eq_right hf, max_eq_left hf]
    constructor <;> nlinarith

theorem interp1_bracket :
    ∀ (xs : List ℚ) (x1 x2 : ℚ) (fs : List ℚ) (f1 f2 : ℚ) (x : ℚ),
      xs.length = fs.length → x1 < x → x ≤ (x2 :: xs).getD xs.length 0 →
      ∃ a, a + 1 < (x1 :: x2 :: xs).length ∧
        (x1 :: x2 :: xs).getD a 0 < x ∧ x ≤ (x1 :: x2 :: xs).getD (a + 1) 0 ∧
        min ((f1 :: f2 :: fs).getD a 0) ((f1 :: f2 :: fs).getD (a + 1) 0) ≤
          interp1 (x1 :: x2 :: xs) (f1 :: f2 :: fs) x ∧
        interp1 (x1 :: x2 :: xs) (f1 :: f2 :: fs) x ≤
          max ((f1 :: f2 :: fs).getD a 0) ((f1 :: f2 :: fs).getD (a + 1) 0)
  | [], x1, x2, fs, f1, f2, x, hl, hx1, hx2 => by
    have hfs : fs = [] := List.eq_nil_of_length_eq_zero (by simpa using hl.symm)
    subst hfs
    have hx2b : x ≤ x2 := by simpa using hx2
    have hv : interp1 [x1, x2] [f1, f2] x =
        f1 + (f2 - f1) * (x - x1) / (x2 - x1) := by
      show (if x ≤ x1 then f1
        else if x ≤ x2 then f1 + (f2 - f1) * (x - x1) / (x2 - x1)
        else interp1 [x2] [f2] x) = _
      rw [if_neg (not_le.2 hx1), if_pos hx2b]
    obtain ⟨hmin, hmax⟩ := lin_between f1 f2 x1 x2 x hx1 hx2b
    exact ⟨0, by simp, by simpa using hx1, by simpa using hx2b,
      by simpa [hv] using hmin, by simpa [hv] using hmax⟩
  | x3 :: xs, x1, x2, fs, f1, f2, x, hl, hx1, hx2 => by
    obtain ⟨f3, fs2, rfl⟩ : ∃ f3 fs2, fs = f3 :: fs2 := by
      cases fs with
      | nil => simp at hl
      | cons a b => exact ⟨a, b, rfl⟩
    have hunf : interp1 (x1 :: x2 :: x3 :: xs) (f1 :: f2 :: f3 :: fs2) x =
        if x ≤ x1 then f1
        else if x ≤ x2 then f1 + (f2 - f1) * (x - x1) / (x2 - x1)
        else interp1 (x2 :: x3 :: xs) (f2 :: f3 :: fs2) x := rfl
    by_cases hx2b : x ≤ x2
    · have hv : interp1 (x1 :: x2 :: x3 :: xs) (f1 :: f2 :: f3 :: fs2) x =
          f1 + (f2 - f1) * (x - x1) / (x2 - x1) := by
        rw [hunf, if_neg (not_le.2 hx1), if_pos hx2b]
      obtain ⟨hmin, hmax⟩ := lin_between f1 f2 x1 x2 x hx1 hx2b
      exact ⟨0, by simp, by simpa using hx1, by simpa using hx2b,
        by simpa [hv] using hmin, by simpa [hv] using hmax⟩
    · have hrec : interp1 (x1 :: x2 :: x3 :: xs) (f1 :: f2 :: f3 :: fs2) x =
          interp1 (x2 :: x3 :: xs) (f2 :: f3 :: fs2) x := by
        rw [hunf, if_neg (not_le.2 hx1), if_neg hx2b]
      have hx2c : x2 < x := not_le.1 hx2b
      have hlast : x ≤ (x3 :: xs).getD xs.length 0 := by
        simpa [List.getD_cons_succ] using hx2
      obtain ⟨a, ha1, ha2, ha3, ha4, ha5⟩ :=
        interp1_bracket xs x2 x3 fs2 f2 f3 x (by simpa using hl) hx2c hlast
      refine ⟨a + 1, ?_, ?_, ?_, ?_, ?_⟩
      · simpa using ha1
      · simpa [List.getD_cons_succ] using ha2
      · simpa [List.getD_cons_succ] using ha3
      · rw [hrec]
        simpa [List.getD_cons_succ] using ha4
      · rw [hrec]
        simpa [List.getD_cons_succ] using ha5

theorem pairwise_lt_of_le_nodup {l : List ℚ} (h1 : l.Pairwise (· ≤ ·))
    (h2 : l.Nodup) : l.Pairwise (· < ·) := by
  induction l with
  | nil => exact List.Pairwise.nil
  | cons x xs ih =>
    rw [List.pairwise_cons] at h1 ⊢
    rw [List.nodup_cons] at h2
    refine ⟨fun b hb => lt_of_le_of_ne (h1.1 b hb) ?_, ih h1.2 h2.2⟩
    intro hx
    exact h2.1 (hx ▸ hb)

/-- The times of the reconstructed series are a permutation of the observed
times followed by the missing-cadence times. -/
theorem imd_fst_perm (times fluxes : List ℚ) (hlen : times.length = fluxes.length) :
    ((List.insertionSort leFst (imdPairs times fluxes)).map Prod.fst).Perm
      (times ++ imdMissingTimes times) := by
  have hperm := (List.perm_insertionSort leFst (imdPairs times fluxes)).map Prod.fst
  have h2 : (imdPairs times fluxes).map Prod.fst =
      times ++ imdMissingTimes times := by
    unfold imdPairs
    rw [List.map_append, List.map_fst_zip _ _ (le_of_eq hlen),
      List.map_fst_zip _ _ (by rw [List.length_map])]
  rw [h2] at hperm
  exact hperm

/-- The times of the reconstructed series are strictly ascending. -/
theorem imd_outT_pairwise (times fluxes : List ℚ) (hp : times.Pairwise (· < ·))
    (hlen : times.length = fluxes.length) (h2 : 2 ≤ times.length) :
    ((List.insertionSort leFst (imdPairs times fluxes)).map Prod.fst).Pairwise
      (· < ·) := by
  have hsorted : (List.insertionSort leFst (imdPairs times fluxes)).Pairwise leFst :=
    List.sorted_insertionSort leFst _
  have hle : ((List.insertionSort leFst (imdPairs times fluxes)).map
      Prod.fst).Pairwise (· ≤ ·) :=
    List.pairwise_map.2 (hsorted.imp (fun h => h))
  have hnodup : ((List.insertionSort leFst (imdPairs times fluxes)).map
      Prod.fst).Nodup := by
    apply (imd_fst_perm times fluxes hlen).nodup_iff.2
    rw [List.nodup_append]
    refine ⟨hp.imp (fun h => ne_of_lt h),
      (missing_times_pairwise times hp h2).imp (fun h => ne_of_lt h),
      fun a ha hmt => ?_⟩
    exact (missing_times_mem times hp h2 a hmt).2.2 ha
  exact pairwise_lt_of_le_nodup hle hnodup

/-! The claim theorems. -/

/-- Claim C4: interpolated_acf returns lag and acf arrays whose common length
is the length N of the reconstructed flux series, with lag i equal to i times
the inferred dt (so lag 0 is 0) and acf i equal to the direct overlap sum of
the reconstructed values; in particular acf 0 is the sum of squares. -/
theorem C4_acf_identity (times fluxes lag acf v : List ℚ) (dt : ℚ)
    (h : interpolated_acf times fluxes = Except.ok (lag, acf))
    (hv : v = (interpolate_missing_data times fluxes).2)
    (hdt : dt = median (diffList (interpolate_missing_data times fluxes).1)) :
    lag.length = v.length ∧ acf.length = v.length ∧
      (∀ i, i < v.length → lag.getD i 0 = dt * (i : ℚ)) ∧
      (∀ i, i < v.length → acf.getD i 0 =
        ∑ k ∈ Finset.range (v.length - i), v.getD k 0 * v.getD (k + i) 0) ∧
      acf.getD 0 0 = ∑ k ∈ Finset.range v.length, v.getD k 0 * v.getD k 0 := by
  obtain ⟨hl, ha⟩ := interpolated_acf_ok h
  subst hv hdt hl ha
  refine ⟨by simp, autocorrelation_length _, ?_, fun i hi => autocorrelation_getD _ i hi, ?_⟩
  · intro i hi
    rw [List.getD_eq_getElem _ 0 (by simpa using hi), List.getElem_map,
      List.getElem_range]
  · rcases Nat.eq_zero_or_pos (interpolate_missing_data times fluxes).2.length
      with h0 | h0
    · have hnil : autocorrelation (interpolate_missing_data times fluxes).2 = [] :=
        List.eq_nil_of_length_eq_zero (by rw [autocorrelation_length]; exact h0)
      rw [hnil, h0]
      simp
    · have := autocorrelation_getD (interpolate_missing_data times fluxes).2 0 h0
      simpa using this

theorem C4_acf_identity_witness :
    interpolated_acf [0, 1, 2] [1, 0, 1] = Except.ok ([0, 1, 2], [2, 0, 1]) ∧
      ([2, 0, 1] : List ℚ).getD 0 0 =
        ∑ k ∈ Finset.range ([1, 0, 1] : List ℚ).length,
          ([1, 0, 1] : List ℚ).getD k 0 * ([1, 0, 1] : List ℚ).getD k 0 :=
  ⟨by rfl,
   (C4_acf_identity [0, 1, 2] [1, 0, 1] [0, 1, 2] [2, 0, 1] [1, 0, 1] 1
     (by rfl) (by rfl) (by rfl)).2.2.2.2⟩

/-- Claim C7: interpolate_missing_data is the identity on a complete uniform
grid: with zero missing cadences the returned times and fluxes equal the input
in length, values and order, no cadence being added. -/
theorem C7_idempotence (g0 d : ℚ) (n : ℕ) (fluxes : List ℚ)
    (hd : 0 < d) (h2 : 2 ≤ n) (hflen : fluxes.length = n) :
    interpolate_missing_data
        ((List.range n).map (fun i : ℕ => g0 + (i : ℚ) * d)) fluxes =
      ((List.range n).map (fun i : ℕ => g0 + (i : ℚ) * d), fluxes) := by
  set times := (List.range n).map (fun i : ℕ => g0 + (i : ℚ) * d) with htimes
  have hlen_t : times.length = n := by
    rw [htimes, List.length_map, List.length_range]
  have hdt : imdDt times = d := by
    unfold imdDt
    rw [htimes, diffList_grid, median_replicate _ _ (by omega)]
  have hhead : times.headD 0 = g0 := by
    rw [htimes]
    cases n with
    | zero => omega
    | succ m =>
      rw [List.range_succ_eq_map, List.map_cons]
      simp
  have hcad : imdCad times = (List.range n).map (fun k : ℕ => (k : ℤ)) := by
    unfold imdCad
    rw [hdt, hhead, htimes, List.map_map]
    apply List.map_congr_left
    intro k hk
    show rint ((g0 + (k : ℚ) * d - g0) / d) = (k : ℤ)
    have hq : (g0 + (k : ℚ) * d - g0) / d = ((k : ℤ) : ℚ) := by
      rw [add_sub_cancel_left]
      push_cast
      field_simp
    rw [hq, rint_intCast]
  have hne : (List.range n).map (fun k : ℕ => (k : ℤ)) ≠ [] := by
    simp only [ne_eq, List.map_eq_nil_iff, List.range_eq_nil]
    omega
  have hmin : minListI (imdCad times) = 0 := by
    rw [hcad]
    have h0mem : (0 : ℤ) ∈ (List.range n).map (fun k : ℕ => (k : ℤ)) :=
      List.mem_map.2 ⟨0, List.mem_range.2 (by omega), rfl⟩
    have hle := minListI_le h0mem
    obtain ⟨a, -, ha⟩ := List.mem_map.1 (minListI_mem hne)
    omega
  have hmax : maxListI (imdCad times) = (n : ℤ) - 1 := by
    rw [hcad]
    have hmem : ((n - 1 : ℕ) : ℤ) ∈ (List.range n).map (fun k : ℕ => (k : ℤ)) :=
      List.mem_map.2 ⟨n - 1, List.mem_range.2 (by omega), rfl⟩
    have hle := le_maxListI hmem
    obtain ⟨a, ha2, ha⟩ := List.mem_map.1 (maxListI_mem hne)
    rw [List.mem_range] at ha2
    omega
  have hmissing : imdMissing times = [] := by
    unfold imdMissing
    rw [hmin, hmax, List.filter_eq_nil_iff]
    intro i hi
    rw [mem_intRange] at hi
    simp only [decide_eq_true_eq, not_not]
    rw [hcad]
    exact List.mem_map.2 ⟨i.toNat, List.mem_range.2 (by omega), by omega⟩
  have hmt : imdMissingTimes times = [] := by
    unfold imdMissingTimes
    rw [hmissing]
    rfl
  have hpairs : imdPairs times fluxes = times.zip fluxes := by
    unfold imdPairs
    rw [hmt]
    simp
  have hpw : times.Pairwise (· < ·) := by
    rw [htimes]
    exact grid_map_pairwise g0 d hd (List.sorted_lt_range n)
  have hsorted : List.insertionSort leFst (times.zip fluxes) = times.zip fluxes := by
    apply List.Sorted.insertionSort_eq
    exact pairwise_zip_left times fluxes (hpw.imp le_of_lt)
  unfold interpolate_missing_data
  rw [hpairs, hsorted]
  dsimp only
  rw [List.map_fst_zip _ _ (by omega), List.map_snd_zip _ _ (by omega)]

/-- Claim C3: for times obtained by removing a subset of points from a
uniform grid, reconstruction preserves every observed (time, flux) pair
exactly, and every value at a time not among the observed ones is the linear
interpolation over the adjacent observed bracketing pair, hence lies between
the two bracketing flux values (no overshoot). -/
theorem C3_reconstruction (g0 d : ℚ) (idxs : List ℕ)
    (times fluxes outT outF : List ℚ)
    (hd : 0 < d) (hidx : idxs.Pairwise (· < ·))
    (ht : times = idxs.map (fun i : ℕ => g0 + (i : ℚ) * d))
    (hlen : times.length = fluxes.length) (h2 : 2 ≤ times.length)
    (hout : interpolate_missing_data times fluxes = (outT, outF)) :
    (∀ k, k < times.length → ∃ j, j < outT.length ∧
        outT.getD j 0 = times.getD k 0 ∧ outF.getD j 0 = fluxes.getD k 0) ∧
      ∀ j, j < outT.length → outT.getD j 0 ∉ times →
        ∃ a, a + 1 < times.length ∧
          times.getD a 0 < outT.getD j 0 ∧ outT.getD j 0 ≤ times.getD (a + 1) 0 ∧
          min (fluxes.getD a 0) (fluxes.getD (a + 1) 0) ≤ outF.getD j 0 ∧
          outF.getD j 0 ≤ max (fluxes.getD a 0) (fluxes.getD (a + 1) 0) := by
  have hp : times.Pairwise (· < ·) := ht ▸ grid_map_pairwise g0 d hd hidx
  have hT : outT = (List.insertionSort leFst (imdPairs times fluxes)).map Prod.fst :=
    (congrArg Prod.fst hout).symm
  have hF : outF = (List.insertionSort leFst (imdPairs times fluxes)).map Prod.snd :=
    (congrArg Prod.snd hout).symm
  constructor
  · intro k hk
    have hkf : k < fluxes.length := by omega
    have hkz : k < (times.zip fluxes).length := by
      rw [List.length_zip]; omega
    have hpair : (times.getD k 0, fluxes.getD k 0) ∈ times.zip fluxes := by
      have hz : (times.zip fluxes)[k] = (times.getD k 0, fluxes.getD k 0) := by
        rw [List.getElem_zip, List.getD_eq_getElem _ 0 hk,
          List.getD_eq_getElem _ 0 hkf]
      rw [← hz]
      exact List.getElem_mem _
    have hmemS : (times.getD k 0, fluxes.getD k 0) ∈
        List.insertionSort leFst (imdPairs times fluxes) := by
      rw [(List.perm_insertionSort leFst _).mem_iff]
      unfold imdPairs
      exact List.mem_append_left _ hpair
    obtain ⟨j, hj, hjp⟩ := List.mem_iff_getElem.1 hmemS
    refine ⟨j, ?_, ?_, ?_⟩
    · rw [hT, List.length_map]; exact hj
    · rw [hT, List.getD_eq_getElem _ 0 (by rw [List.length_map]; exact hj),
        List.getElem_map, hjp]
    · rw [hF, List.getD_eq_getElem _ 0 (by rw [List.length_map]; exact hj),
        List.getElem_map, hjp]
  · intro j hj hnot
    have hjS : j < (List.insertionSort leFst (imdPairs times fluxes)).length := by
      rw [hT, List.length_map] at hj
      exact hj
    have hTj : outT.getD j 0 =
        ((List.insertionSort leFst (imdPairs times fluxes))[j]).1 := by
      rw [hT, List.getD_eq_getElem _ 0 (by rw [List.length_map]; exact hjS),
        List.getElem_map]
    have hFj : outF.getD j 0 =
        ((List.insertionSort leFst (imdPairs times fluxes))[j]).2 := by
      rw [hF, List.getD_eq_getElem _ 0 (by rw [List.length_map]; exact hjS),
        List.getElem_map]
    have hmemP : (List.insertionSort leFst (imdPairs times fluxes))[j] ∈
        imdPairs times fluxes := by
      rw [← (List.perm_insertionSort leFst (imdPairs times fluxes)).mem_iff]
      exact List.getElem_mem _
    unfold imdPairs at hmemP
    rcases List.mem_append.1 hmemP with hobs | hmiss
    · exfalso
      apply hnot
      rw [hTj]
      have hz : (((List.insertionSort leFst (imdPairs times fluxes))[j]).1,
          ((List.insertionSort leFst (imdPairs times fluxes))[j]).2) ∈
          times.zip fluxes := by
        simpa using hobs
      exact (List.of_mem_zip hz).1
    · have hz : (((List.insertionSort leFst (imdPairs times fluxes))[j]).1,
          ((List.insertionSort leFst (imdPairs times fluxes))[j]).2) ∈
          (imdMissingTimes times).zip
            ((imdMissingTimes times).map (fun t => interp1 times fluxes t)) := by
        simpa using hmiss
      have hfst : ((List.insertionSort leFst (imdPairs times fluxes))[j]).1 ∈
          imdMissingTimes times := (List.of_mem_zip hz).1
      have hsnd : ((List.insertionSort leFst (imdPairs times fluxes))[j]).2 =
          interp1 times fluxes
            (((List.insertionSort leFst (imdPairs times fluxes))[j]).1) :=
        zip_map_self _ _ _ hmiss
      obtain ⟨hlow, hhigh, -⟩ := missing_times_mem times hp h2 _ hfst
      obtain ⟨t1, t2, rest, hshape⟩ : ∃ t1 t2 rest, times = t1 :: t2 :: rest := by
        cases times with
        | nil => simp at h2
        | cons a l =>
          cases l with
          | nil => simp at h2
          | cons b l2 => exact ⟨a, b, l2, rfl⟩
      obtain ⟨g1, g2, grest, hgshape⟩ : ∃ g1 g2 grest, fluxes = g1 :: g2 :: grest := by
        cases fluxes with
        | nil => rw [hshape] at hlen; simp at hlen
        | cons a l =>
          cases l with
          | nil => rw [hshape] at hlen; simp at hlen
          | cons b l2 => exact ⟨a, b, l2, rfl⟩
      subst hshape
      subst hgshape
      have hx1 : t1 < ((List.insertionSort leFst
          (imdPairs (t1 :: t2 :: rest) (g1 :: g2 :: grest)))[j]).1 := by
        simpa using hlow
      have hlast : ((List.insertionSort leFst
          (imdPairs (t1 :: t2 :: rest) (g1 :: g2 :: grest)))[j]).1 ≤
          (t2 :: rest).getD rest.length 0 := by
        apply le_of_lt
        simpa [List.getD_cons_succ] using hhigh
      have hlen2 : rest.length = grest.length := by
        simpa using hlen
      obtain ⟨a, ha1, ha2, ha3, ha4, ha5⟩ :=
        interp1_bracket rest t1 t2 grest g1 g2 _ hlen2 hx1 hlast
      refine ⟨a, ha1, ?_, ?_, ?_, ?_⟩
      · rw [hTj]; exact ha2
      · rw [hTj]; exact ha3
      · rw [hFj, hsnd]; exact ha4
      · rw [hFj, hsnd]; exact ha5

theorem C3_reconstruction_witness :
    ((∀ k, k < ([0, 1, 2, 4] : List ℚ).length → ∃ j,
        j < ([0, 1, 2, 3, 4] : List ℚ).length ∧
        ([0, 1, 2, 3, 4] : List ℚ).getD j 0 = ([0, 1, 2, 4] : List ℚ).getD k 0 ∧
        ([10, 20, 30, 40, 50] : List ℚ).getD j 0 =
          ([10, 20, 30, 50] : List ℚ).getD k 0) ∧
      ∀ j, j < ([0, 1, 2, 3, 4] : List ℚ).length →
        ([0, 1, 2, 3, 4] : List ℚ).getD j 0 ∉ ([0, 1, 2, 4] : List ℚ) →
        ∃ a, a + 1 < ([0, 1, 2, 4] : List ℚ).length ∧
          ([0, 1, 2, 4] : List ℚ).getD a 0 < ([0, 1, 2, 3, 4] : List ℚ).getD j 0 ∧
          ([0, 1, 2, 3, 4] : List ℚ).getD j 0 ≤ ([0, 1, 2, 4] : List ℚ).getD (a + 1) 0 ∧
          min (([10, 20, 30, 50] : List ℚ).getD a 0)
              (([10, 20, 30, 50] : List ℚ).getD (a + 1) 0) ≤
            ([10, 20, 30, 40, 50] : List ℚ).getD j 0 ∧
          ([10, 20, 30, 40, 50] : List ℚ).getD j 0 ≤
            max (([10, 20, 30, 50] : List ℚ).getD a 0)
              (([10, 20, 30, 50] : List ℚ).getD (a + 1) 0)) :=
  C3_reconstruction 0 1 [0, 1, 2, 4] [0, 1, 2, 4] [10, 20, 30, 50]
    [0, 1, 2, 3, 4] [10, 20, 30, 40, 50] (by norm_num) (by decide) (by rfl)
    (by rfl) (by norm_num) (by rfl)

/-- Claim C8: the reconstructed series is dense over the cadence grid: the
returned times are strictly ascending, times and fluxes have equal length, and
every integer cadence index between the minimum and maximum observed index is
realised by some returned time. -/
theorem C8_dense_invariant (times fluxes outT outF : List ℚ)
    (hp : times.Pairwise (· < ·)) (hlen : times.length = fluxes.length)
    (h2 : 2 ≤ times.length)
    (hout : interpolate_missing_data times fluxes = (outT, outF)) :
    outT.Pairwise (· < ·) ∧ outT.length = outF.length ∧
      ∀ i : ℤ, minListI (imdCad times) ≤ i → i ≤ maxListI (imdCad times) →
        ∃ t ∈ outT, rint ((t - times.headD 0) / imdDt times) = i := by
  have hT : outT = (List.insertionSort leFst (imdPairs times fluxes)).map Prod.fst :=
    (congrArg Prod.fst hout).symm
  have hF : outF = (List.insertionSort leFst (imdPairs times fluxes)).map Prod.snd :=
    (congrArg Prod.snd hout).symm
  refine ⟨?_, ?_, ?_⟩
  · rw [hT]
    exact imd_outT_pairwise times fluxes hp hlen h2
  · rw [hT, hF, List.length_map, List.length_map]
  · intro i hmin hmax
    by_cases hic : i ∈ imdCad times
    · obtain ⟨t, htm, hti⟩ := List.mem_map.1 hic
      refine ⟨t, ?_, hti⟩
      rw [hT, (imd_fst_perm times fluxes hlen).mem_iff]
      exact List.mem_append_left _ htm
    · have hne : times ≠ [] := by
        intro h; rw [h] at h2; simp at h2
      have hcadne : imdCad times ≠ [] := by
        unfold imdCad
        simpa using hne
      have hneq : i ≠ maxListI (imdCad times) := fun h =>
        hic (h ▸ maxListI_mem hcadne)
      have himiss : i ∈ imdMissing times := by
        unfold imdMissing
        rw [List.mem_filter, mem_intRange]
        exact ⟨⟨hmin, by omega⟩, by simpa using hic⟩
      refine ⟨times.headD 0 + (i : ℚ) * imdDt times, ?_, ?_⟩
      · rw [hT, (imd_fst_perm times fluxes hlen).mem_iff]
        exact List.mem_append_right _ (List.mem_map.2 ⟨i, himiss, rfl⟩)
      · have hdne : imdDt times ≠ 0 := ne_of_gt (dt_pos times hp h2)
        have heq : (times.headD 0 + (i : ℚ) * imdDt times - times.headD 0) /
            imdDt times = ((i : ℤ) : ℚ) := by
          rw [add_sub_cancel_left]
          field_simp
        rw [heq, rint_intCast]

theorem C8_dense_invariant_witness :
    ([0, 1, 2, 3, 4] : List ℚ).Pairwise (· < ·) ∧
      ([0, 1, 2, 3, 4] : List ℚ).length = ([10, 20, 30, 40, 50] : List ℚ).length ∧
      ∀ i : ℤ, minListI (imdCad [0, 1, 2, 4]) ≤ i →
        i ≤ maxListI (imdCad [0, 1, 2, 4]) →
        ∃ t ∈ ([0, 1, 2, 3, 4] : List ℚ),
          rint ((t - ([0, 1, 2, 4] : List ℚ).headD 0) / imdDt [0, 1, 2, 4]) = i :=
  C8_dense_invariant [0, 1, 2, 4] [10, 20, 30, 50] [0, 1, 2, 3, 4]
    [10, 20, 30, 40, 50] (by decide) (by rfl) (by norm_num) (by rfl)

theorem C7_idempotence_witness :
    interpolate_missing_data
        ((List.range 3).map (fun i : ℕ => 0 + (i : ℚ) * 1)) [5, 6, 7] =
      ((List.range 3).map (fun i : ℕ => 0 + (i : ℚ) * 1), [5, 6, 7]) :=
  C7_idempotence 0 1 3 [5, 6, 7] (by norm_num) (by omega) (by rfl)

/-- Claim C1: for every (lag, acf) input to dominant_period whose smoothed,
bounds-filtered sequence contains no strict local maximum, the call returns
the nan sentinel (none) and emits the non-fatal diagnostic exactly when quiet
is not set; the embedding is a total function, matching the raise-free source
body, so no exception interrupts the caller. -/
theorem C1_no_peak_sentinel (gf : ℚ → ℚ → List ℚ → List ℚ) (lag acf : List ℚ)
    (mn mx : Option ℚ) (fwhm window : ℚ) (quiet : Bool)
    (h : argrelmax (smoothACF gf lag acf mn mx fwhm window) = []) :
    dominant_period gf lag acf mn mx fwhm window quiet = ⟨none, !quiet⟩ :=
  dominant_period_of_empty gf lag acf mn mx fwhm window quiet h

theorem C1_no_peak_sentinel_witness :
    dominant_period (fun _ _ xs => xs) [0, 1, 2] [3, 2, 1] none none 18 56 false =
        ⟨none, true⟩ ∧
      dominant_period (fun _ _ xs => xs) [0, 1, 2] [3, 2, 1] none none 18 56 true =
        ⟨none, false⟩ :=
  ⟨C1_no_peak_sentinel _ [0, 1, 2] [3, 2, 1] none none 18 56 false (by decide),
   C1_no_peak_sentinel _ [0, 1, 2] [3, 2, 1] none none 18 56 true (by decide)⟩

/-- Claim C2: with both bounds given, dominant_period retains exactly the
entries with min < lag < max, the same mask applied to lag and acf so that
alignment is preserved, and any returned period p satisfies min < p < max. -/
theorem C2_strict_bounds (gf : ℚ → ℚ → List ℚ → List ℚ) (lag acf : List ℚ)
    (m M fwhm window : ℚ) (quiet : Bool) (p : ℚ)
    (hlen : lag.length = acf.length)
    (hgf : ∀ s t xs, (gf s t xs).length = xs.length) :
    (limited (some m) (some M) lag acf).1 =
        lag.filter (fun t => decide (t < M) && decide (m < t)) ∧
      (limited (some m) (some M) lag acf).1.zip (limited (some m) (some M) lag acf).2 =
        (lag.zip acf).filter (fun q => decide (q.1 < M) && decide (m < q.1)) ∧
      ((dominant_period gf lag acf (some m) (some M) fwhm window quiet).period = some p →
        m < p ∧ p < M) := by
  refine ⟨?_, ?_, ?_⟩
  · exact maskFilter_map_self _ lag
  · exact maskFilter_zip _ lag acf hlen
  · intro hp
    have hmem := dp_period_mem gf lag acf (some m) (some M) fwhm window quiet p hlen hgf hp
    have hmask := mem_maskFilter_self (fun t => decide (t < M) && decide (m < t)) hmem
    simp only [Bool.and_eq_true, decide_eq_true_eq] at hmask
    exact ⟨hmask.2, hmask.1⟩

theorem C2_strict_bounds_witness : (0 : ℚ) < 3 ∧ (3 : ℚ) < 5 :=
  (C2_strict_bounds (fun _ _ xs => xs) [0, 1, 2, 3, 4] [0, 9, 1, 5, 0] 0 5 18 56
    false 3 rfl (fun _ _ _ => rfl)).2.2 (by decide)

/-- Claim C5: the peak search of dominant_period selects exactly the indices
strictly greater than both immediate neighbours (endpoints are never
candidates), and when peaks exist the call returns the unsmoothed lag value of
the bounds-filtered lag array at a peak index of maximal smoothed value, ties
resolving deterministically to the first-encountered (lowest-lag) peak. -/
theorem C5_peak_selection :
    (∀ (s : List ℚ) (i : ℕ), i ∈ argrelmax s ↔
        0 < i ∧ i + 1 < s.length ∧ s.getD (i - 1) 0 < s.getD i 0 ∧
          s.getD (i + 1) 0 < s.getD i 0) ∧
      ∀ (gf : ℚ → ℚ → List ℚ → List ℚ) (lag acf : List ℚ) (mn mx : Option ℚ)
        (fwhm window : ℚ) (quiet : Bool),
        argrelmax (smoothACF gf lag acf mn mx fwhm window) ≠ [] →
        ∃ j, j ∈ argrelmax (smoothACF gf lag acf mn mx fwhm window) ∧
          dominant_period gf lag acf mn mx fwhm window quiet =
            ⟨some ((limited mn mx lag acf).1.getD j 0), false⟩ ∧
          (∀ r ∈ argrelmax (smoothACF gf lag acf mn mx fwhm window),
            (smoothACF gf lag acf mn mx fwhm window).getD r 0 ≤
              (smoothACF gf lag acf mn mx fwhm window).getD j 0) ∧
          (∀ r ∈ argrelmax (smoothACF gf lag acf mn mx fwhm window), r < j →
            (smoothACF gf lag acf mn mx fwhm window).getD r 0 <
              (smoothACF gf lag acf mn mx fwhm window).getD j 0) := by
  constructor
  · exact fun s i => mem_argrelmax
  · intro gf lag acf mn mx fwhm window quiet hne
    obtain ⟨h1, h2, h3⟩ := select_spec _ hne
    exact ⟨_, h1, dominant_period_of_ne gf lag acf mn mx fwhm window quiet hne, h2, h3⟩

theorem C5_peak_selection_witness :
    (1 ∈ argrelmax ([0, 5, 1, 5, 0] : List ℚ)) ∧
      ∃ j, j ∈ argrelmax (smoothACF (fun _ _ xs => xs) [0, 1, 2, 3, 4]
          [0, 5, 1, 5, 0] none none 18 56) ∧
        dominant_period (fun _ _ xs => xs) [0, 1, 2, 3, 4] [0, 5, 1, 5, 0]
            none none 18 56 false =
          ⟨some ((limited none none [0, 1, 2, 3, 4] [0, 5, 1, 5, 0]).1.getD j 0),
           false⟩ ∧
        (∀ r ∈ argrelmax (smoothACF (fun _ _ xs => xs) [0, 1, 2, 3, 4]
            [0, 5, 1, 5, 0] none none 18 56),
          (smoothACF (fun _ _ xs => xs) [0, 1, 2, 3, 4] [0, 5, 1, 5, 0]
              none none 18 56).getD r 0 ≤
            (smoothACF (fun _ _ xs => xs) [0, 1, 2, 3, 4] [0, 5, 1, 5, 0]
              none none 18 56).getD j 0) ∧
        (∀ r ∈ argrelmax (smoothACF (fun _ _ xs => xs) [0, 1, 2, 3, 4]
            [0, 5, 1, 5, 0] none none 18 56), r < j →
          (smoothACF (fun _ _ xs => xs) [0, 1, 2, 3, 4] [0, 5, 1, 5, 0]
              none none 18 56).getD r 0 <
            (smoothACF (fun _ _ xs => xs) [0, 1, 2, 3, 4] [0, 5, 1, 5, 0]
              none none 18 56).getD j 0) :=
  ⟨(C5_peak_selection.1 [0, 5, 1, 5, 0] 1).mpr (by decide),
   C5_peak_selection.2 (fun _ _ xs => xs) [0, 1, 2, 3, 4] [0, 5, 1, 5, 0]
     none none 18 56 false (by decide)⟩

/-- Claim C6 as amended: interpolated_acf raises its chronological-order
ValueError exactly when the input times are not weakly ascending.  The claim
as stated fails: times that merely repeat a timestamp are not strictly
ascending, yet they pass the np.sort(times) == times check and no error is
raised. -/
theorem C6_sorted_check (times fluxes : List ℚ) :
    (∃ e, interpolated_acf times fluxes = Except.error e) ↔
      ¬ times.Pairwise (· ≤ ·) := by
  by_cases h : npSort times = times
  · have hp := (npSort_eq_self_iff times).1 h
    constructor
    · rintro ⟨e, he⟩
      rw [interpolated_acf, if_neg (not_not_intro h)] at he
      exact Except.noConfusion he
    · intro hn
      exact absurd hp hn
  · constructor
    · intro _
      exact fun hpw => h ((npSort_eq_self_iff times).2 hpw)
    · intro _
      refine ⟨"Arrays must be in chronological order to compute ACF", ?_⟩
      rw [interpolated_acf, if_pos h]

/-- Claim C6, counterexample to the claim as stated: the times 0, 0, 1, 2, 3
are not strictly ascending, yet interpolated_acf raises no error and returns a
result. -/
theorem C6_sorted_check_counterexample :
    ¬ List.Pairwise (· < ·) ([0, 0, 1, 2, 3] : List ℚ) ∧
      interpolated_acf ([0, 0, 1, 2, 3] : List ℚ) [1, 2, 3, 4, 5] =
        Except.ok ([0, 1, 2, 3, 4], [55, 40, 26, 14, 5]) := by
  constructor
  · intro hpw
    exact absurd (List.rel_of_pairwise_cons hpw (List.mem_cons_self 0 [1, 2, 3]))
      (lt_irrefl (0 : ℚ))
  · rfl

/-- Claim C10: dominant_period has no frame effect on its caller: in the
heap-level embedding, where every numpy array operation of the body allocates
a fresh cell, the cells holding the caller's lag and acf arrays are unchanged
when the call returns. -/
theorem C10_frame_effect (gf : ℚ → ℚ → List ℚ → List ℚ) (h : Heap)
    (lagRef acfRef : ℕ) (mn mx : Option ℚ) (fwhm window : ℚ) (quiet : Bool)
    (hl : lagRef < h.length) (ha : acfRef < h.length) :
    readH (dominant_period_heap gf h lagRef acfRef mn mx fwhm window quiet).1 lagRef =
        readH h lagRef ∧
      readH (dominant_period_heap gf h lagRef acfRef mn mx fwhm window quiet).1 acfRef =
        readH h acfRef := by
  obtain ⟨t, ht⟩ := dominant_period_heap_fst gf h lagRef acfRef mn mx fwhm window quiet
  rw [ht]
  exact ⟨readH_append t hl, readH_append t ha⟩

theorem C10_frame_effect_witness :
    readH (dominant_period_heap (fun _ _ xs => xs) [[0, 1, 2], [3, 2, 1]] 0 1
          none none 18 56 false).1 0 =
        readH [[0, 1, 2], [3, 2, 1]] 0 ∧
      readH (dominant_period_heap (fun _ _ xs => xs) [[0, 1, 2], [3, 2, 1]] 0 1
          none none 18 56 false).1 1 =
        readH [[0, 1, 2], [3, 2, 1]] 1 :=
  C10_frame_effect (fun _ _ xs => xs) [[0, 1, 2], [3, 2, 1]] 0 1 none none 18 56
    false (by decide) (by decide)

end InterpACF
